import Mathlib

/-!
Verification of the token-verification cache and authorization decision
engine of nginx-plex-auth-server.

The Go source is embedded shallowly:

* `TokenCacheEntry`, `CacheOptions`, `Client` mirror the types of
  `internal/cache` (`TokenCacheEntry`, `Options`, `Client`).
* The Go `map[string]*TokenCacheEntry` is modelled as an association list
  with the usual map semantics (insert overwrites the existing key,
  delete removes the key); iteration order of `evictOldest` is the list
  order.
* Wall-clock instants are natural numbers; `time.Now().After(t)` becomes
  `t < now`, and `time.Now().Add(ttl)` becomes `now + ttl`.  Every
  operation that reads the clock takes `now` as an explicit argument.
* The HTTP handlers (`AuthHandler` of `internal/server/auth.go` and
  `CallbackHandler` of `internal/server/callback.go`) become functions of
  the cache state and of the outcomes of the upstream Plex calls, which
  are passed in as oracle arguments.  They return the decision outcome,
  the new cache state, and the list of upstream calls performed.
-/

/-- Cached token validation result (`cache.TokenCacheEntry`). -/
structure TokenCacheEntry where
  valid : Bool
  hasAccess : Bool
  expiresAt : Nat
deriving Repr, DecidableEq

/-- Cache configuration (`cache.Options`). -/
structure CacheOptions where
  ttl : Nat
  maxSize : Nat
deriving Repr, DecidableEq

/-- The token cache (`cache.Client`); `entries` models the Go map. -/
structure Client where
  opts : CacheOptions
  entries : List (String × TokenCacheEntry)
deriving Repr, DecidableEq

/-- Go map read `c.entries[token]`: first binding of the key, if any. -/
def lookupToken : List (String × TokenCacheEntry) → String → Option TokenCacheEntry
  | [], _ => none
  | (k, e) :: rest, t => if k = t then some e else lookupToken rest t

/-- Go map write `c.entries[token] = entry`: overwrite or append. -/
def insertEntry : List (String × TokenCacheEntry) → String → TokenCacheEntry →
    List (String × TokenCacheEntry)
  | [], t, e => [(t, e)]
  | (k, e0) :: rest, t, e =>
    if k = t then (t, e) :: rest else (k, e0) :: insertEntry rest t e

/-- Go map delete `delete(c.entries, token)`: drop the binding of the key. -/
def deleteToken : List (String × TokenCacheEntry) → String →
    List (String × TokenCacheEntry)
  | [], _ => []
  | (k, e) :: rest, t => if k = t then rest else (k, e) :: deleteToken rest t

/-- The method `Client.Get`: a miss if the token is absent or if
`time.Now().After(entry.ExpiresAt)`; otherwise the entry is returned. -/
def Client.get (c : Client) (now : Nat) (token : String) : Option TokenCacheEntry :=
  match lookupToken c.entries token with
  | none => none
  | some entry => if entry.expiresAt < now then none else some entry

/-- The loop body of `Client.evictOldest`: fold over the entries keeping
`(oldestToken, oldestTime)`, updating when `oldestToken == "" ||
entry.ExpiresAt.Before(oldestTime)`. -/
def evictLoop : List (String × TokenCacheEntry) → String → Nat → String × Nat
  | [], oldestToken, oldestTime => (oldestToken, oldestTime)
  | (token, entry) :: rest, oldestToken, oldestTime =>
    if oldestToken = "" ∨ entry.expiresAt < oldestTime then
      evictLoop rest token entry.expiresAt
    else
      evictLoop rest oldestToken oldestTime

/-- The method `Client.evictOldest`: find the oldest entry starting from
the sentinel `("", 0)` and delete it unless the sentinel survived. -/
def Client.evictOldest (c : Client) : Client :=
  let r := evictLoop c.entries "" 0
  if r.1 ≠ "" then { c with entries := deleteToken c.entries r.1 } else c

/-- The method `Client.Set`: evict when `len(entries) >= MaxSize`, then
stamp `ExpiresAt = now + TTL` and store the verdict under the token. -/
def Client.set (c : Client) (now : Nat) (token : String) (valid hasAccess : Bool) :
    Client :=
  let c1 := if c.opts.maxSize ≤ c.entries.length then c.evictOldest else c
  { c1 with
    entries := insertEntry c1.entries token
      { valid := valid, hasAccess := hasAccess, expiresAt := now + c1.opts.ttl } }

/-- The method `Client.Invalidate`: unconditional removal of the token. -/
def Client.invalidate (c : Client) (token : String) : Client :=
  { c with entries := deleteToken c.entries token }

/-- The method `Client.Clear`: remove all entries. -/
def Client.clear (c : Client) : Client :=
  { c with entries := [] }

/-- The method `Client.Size`. -/
def Client.size (c : Client) : Nat :=
  c.entries.length

/-- One tick of the background goroutine `Client.cleanupExpired`: delete
every entry with `now.After(entry.ExpiresAt)`. -/
def Client.sweep (c : Client) (now : Nat) : Client :=
  { c with entries := c.entries.filter (fun p => ¬ p.2.expiresAt < now) }

/-- Decision outcomes of the auth endpoint, as written by
`res.WriteHeader`: 401, 403, 200. -/
inductive AuthOutcome
  | unauthenticated
  | forbidden
  | authorized
deriving Repr, DecidableEq

/-- Upstream Plex calls the handlers can issue. -/
inductive UpstreamCall
  | getUserInfo
  | checkServerAccess
deriving Repr, DecidableEq

/-- The handler `Server.AuthHandler` of `internal/server/auth.go`.

Oracle arguments: `userOk` is true when `GetUserInfo` returns a non-nil
user and no error; `access` and `accessErr` are the two results of
`CheckServerAccess`.  The deferred function of the source sets
`{Valid: false, HasAccess: false}` on every exit of the cache-miss path
that did not reach `authorized = true`. -/
def AuthHandler (c : Client) (now : Nat) (authToken : String)
    (userOk : Bool) (access : Bool) (accessErr : Bool) :
    AuthOutcome × Client × List UpstreamCall :=
  if authToken = "" then
    (.unauthenticated, c, [])
  else
    match c.get now authToken with
    | some entry =>
      if entry.valid && entry.hasAccess then
        (.authorized, c, [])
      else
        (.forbidden, c, [])
    | none =>
      if !userOk then
        (.unauthenticated, c.set now authToken false false, [.getUserInfo])
      else if !access || accessErr then
        (.forbidden, c.set now authToken false false,
          [.getUserInfo, .checkServerAccess])
      else
        (.authorized, c.set now authToken true true,
          [.getUserInfo, .checkServerAccess])

/-- Outcomes of the PIN polling endpoint, as written by `http.Error` and
`res.WriteHeader`: 500, 401, 403, 200. -/
inductive PollOutcome
  | error
  | notYetClaimed
  | claimedNoAccess
  | claimedWithAccess (token : String)
deriving Repr, DecidableEq

/-- The handler `Server.CallbackHandler` of `internal/server/callback.go`
from the `CheckAuthPin` call onward (the `pin_id` query parsing is HTTP
plumbing with no cache interaction).

Oracle arguments: `checkPinErr` is the error of `CheckAuthPin`;
`authToken` is `checkResp.AuthToken`; `userOk`, `access`, `accessErr` as
in `AuthHandler`.  On full success `createSessionCookie` stores
`{Valid: true, HasAccess: true}` for the token. -/
def CallbackHandler (c : Client) (now : Nat) (checkPinErr : Bool)
    (authToken : String) (userOk : Bool) (access : Bool) (accessErr : Bool) :
    PollOutcome × Client :=
  if checkPinErr then
    (.error, c)
  else if authToken = "" then
    (.notYetClaimed, c)
  else if !userOk then
    (.error, c)
  else if accessErr then
    (.error, c)
  else if !access then
    (.claimedNoAccess, c)
  else
    (.claimedWithAccess authToken, c.set now authToken true true)

/-- Cache operations, for reasoning about sequences of interleaved calls. -/
inductive CacheOp
  | set (token : String) (valid hasAccess : Bool)
  | invalidate (token : String)
  | clear
  | sweep
  | get (token : String)
deriving Repr, DecidableEq

/-- Apply one cache operation at instant `now`.  The body of the source
method `Get` contains no write to `c.entries` (it only reads under the
read lock), so the `get` case returns the state as received. -/
def applyOp (c : Client) (now : Nat) : CacheOp → Client
  | .set t v h => c.set now t v h
  | .invalidate t => c.invalidate t
  | .clear => c.clear
  | .sweep => c.sweep now
  | .get _ => c

/-- Run a list of timestamped cache operations in order. -/
def runOps : Client → List (Nat × CacheOp) → Client
  | c, [] => c
  | c, (now, op) :: rest => runOps (applyOp c now op) rest

/-- Run a list of timestamped `Set` calls `(now, token, valid, hasAccess)`. -/
def runSets : Client → List (Nat × String × Bool × Bool) → Client
  | c, [] => c
  | c, (now, t, v, h) :: rest => runSets (c.set now t v h) rest

/-! ### Association-list lemmas -/

theorem lookup_insertEntry_self (l : List (String × TokenCacheEntry)) (t : String)
    (e : TokenCacheEntry) : lookupToken (insertEntry l t e) t = some e := by
  induction l with
  | nil => simp [insertEntry, lookupToken]
  | cons q rest ih =>
    obtain ⟨k, e0⟩ := q
    by_cases hk : k = t
    · subst hk; simp [insertEntry, lookupToken]
    · simp [insertEntry, lookupToken, hk, ih]

theorem lookup_insertEntry_ne (l : List (String × TokenCacheEntry)) {t t' : String}
    (e : TokenCacheEntry) (h : t' ≠ t) :
    lookupToken (insertEntry l t e) t' = lookupToken l t' := by
  induction l with
  | nil => simp [insertEntry, lookupToken, Ne.symm h]
  | cons q rest ih =>
    obtain ⟨k, e0⟩ := q
    by_cases hk : k = t
    · subst hk; simp [insertEntry, lookupToken, Ne.symm h]
    · by_cases hk' : k = t'
      · subst hk'; simp [insertEntry, lookupToken, hk]
      · simp [insertEntry, lookupToken, hk, hk', ih]

theorem mem_insertEntry {l : List (String × TokenCacheEntry)} {t : String}
    {e : TokenCacheEntry} {p : String × TokenCacheEntry}
    (h : p ∈ insertEntry l t e) : p ∈ l ∨ p = (t, e) := by
  induction l with
  | nil => simp [insertEntry] at h; right; exact h
  | cons q rest ih =>
    obtain ⟨k, e0⟩ := q
    by_cases hk : k = t
    · subst hk
      simp only [insertEntry, if_pos rfl] at h
      rcases List.mem_cons.mp h with h1 | h1
      · right; exact h1
      · left; exact List.mem_cons_of_mem _ h1
    · simp only [insertEntry, if_neg hk] at h
      rcases List.mem_cons.mp h with h1 | h1
      · left; exact h1 ▸ List.mem_cons_self _ _
      · rcases ih h1 with h2 | h2
        · left; exact List.mem_cons_of_mem _ h2
        · right; exact h2

theorem mem_deleteToken {l : List (String × TokenCacheEntry)} {t : String}
    {p : String × TokenCacheEntry} (h : p ∈ deleteToken l t) : p ∈ l := by
  induction l with
  | nil => simp [deleteToken] at h
  | cons q rest ih =>
    obtain ⟨k, e0⟩ := q
    by_cases hk : k = t
    · simp only [deleteToken, if_pos hk] at h
      exact List.mem_cons_of_mem _ h
    · simp only [deleteToken, if_neg hk] at h
      rcases List.mem_cons.mp h with h1 | h1
      · exact h1 ▸ List.mem_cons_self _ _
      · exact List.mem_cons_of_mem _ (ih h1)

theorem length_insertEntry_le (l : List (String × TokenCacheEntry)) (t : String)
    (e : TokenCacheEntry) : (insertEntry l t e).length ≤ l.length + 1 := by
  induction l with
  | nil => simp [insertEntry]
  | cons q rest ih =>
    obtain ⟨k, e0⟩ := q
    by_cases hk : k = t <;> simp only [insertEntry, hk, if_pos, if_neg,
      if_true, if_false, List.length_cons] <;> omega

theorem length_deleteToken_add_one {l : List (String × TokenCacheEntry)}
    {t : String} {e : TokenCacheEntry} (h : (t, e) ∈ l) :
    (deleteToken l t).length + 1 = l.length := by
  induction l with
  | nil => simp at h
  | cons q rest ih =>
    obtain ⟨k, e0⟩ := q
    by_cases hk : k = t
    · simp [deleteToken, hk]
    · have hmem : (t, e) ∈ rest := by
        rcases List.mem_cons.mp h with h1 | h1
        · exfalso
          have : t = k := congrArg Prod.fst h1
          exact hk this.symm
        · exact h1
      have hlen := ih hmem
      simp only [deleteToken, if_neg hk, List.length_cons]
      omega

theorem mem_of_lookup {l : List (String × TokenCacheEntry)} {t : String}
    {e : TokenCacheEntry} (h : lookupToken l t = some e) : (t, e) ∈ l := by
  induction l with
  | nil => simp [lookupToken] at h
  | cons q rest ih =>
    obtain ⟨k, e0⟩ := q
    by_cases hk : k = t
    · subst hk
      simp [lookupToken] at h
      subst h
      exact List.mem_cons_self _ _
    · simp only [lookupToken, if_neg hk] at h
      exact List.mem_cons_of_mem _ (ih h)

theorem lookup_eq_none {l : List (String × TokenCacheEntry)} {t : String}
    (h : ∀ p ∈ l, p.1 ≠ t) : lookupToken l t = none := by
  induction l with
  | nil => rfl
  | cons q rest ih =>
    obtain ⟨k, e0⟩ := q
    have hk : k ≠ t := h (k, e0) (List.mem_cons_self _ _)
    simp only [lookupToken, if_neg hk]
    exact ih fun p hp => h p (List.mem_cons_of_mem _ hp)

theorem entry_eq_of_nodup_keys {l : List (String × TokenCacheEntry)}
    (hnd : (l.map Prod.fst).Nodup) {t : String} {e1 e2 : TokenCacheEntry}
    (h1 : (t, e1) ∈ l) (h2 : (t, e2) ∈ l) : e1 = e2 := by
  induction l with
  | nil => simp at h1
  | cons q rest ih =>
    obtain ⟨k, e0⟩ := q
    simp only [List.map_cons, List.nodup_cons] at hnd
    rcases List.mem_cons.mp h1 with ha | ha <;> rcases List.mem_cons.mp h2 with hb | hb
    · have hea : e1 = e0 := congrArg Prod.snd ha
      have heb : e2 = e0 := congrArg Prod.snd hb
      rw [hea, heb]
    · exfalso
      have hk : t = k := congrArg Prod.fst ha
      exact hnd.1 (hk ▸ (List.mem_map_of_mem Prod.fst hb))
    · exfalso
      have hk : t = k := congrArg Prod.fst hb
      exact hnd.1 (hk ▸ (List.mem_map_of_mem Prod.fst ha))
    · exact ih hnd.2 ha hb

/-! ### Eviction lemmas -/

theorem evictLoop_spec (l : List (String × TokenCacheEntry)) :
    ∀ ot otime, ot ≠ "" → (∀ p ∈ l, p.1 ≠ "") →
    (evictLoop l ot otime).1 ≠ "" ∧
    (evictLoop l ot otime).2 ≤ otime ∧
    ((evictLoop l ot otime).1 = ot ∧ (evictLoop l ot otime).2 = otime ∨
      ∃ e, ((evictLoop l ot otime).1, e) ∈ l ∧
        e.expiresAt = (evictLoop l ot otime).2) ∧
    (∀ p ∈ l, (evictLoop l ot otime).2 ≤ p.2.expiresAt) := by
  induction l with
  | nil =>
    intro ot otime hot _
    refine ⟨hot, le_refl _, Or.inl ⟨rfl, rfl⟩, ?_⟩
    intro p hp; simp at hp
  | cons q rest ih =>
    intro ot otime hot hkeys
    obtain ⟨k, e⟩ := q
    have hk : k ≠ "" := hkeys (k, e) (List.mem_cons_self _ _)
    have hkeys' : ∀ p ∈ rest, p.1 ≠ "" :=
      fun p hp => hkeys p (List.mem_cons_of_mem _ hp)
    by_cases hlt : e.expiresAt < otime
    · have hcond : ot = "" ∨ e.expiresAt < otime := Or.inr hlt
      simp only [evictLoop, if_pos hcond]
      obtain ⟨h1, h2, h3, h4⟩ := ih k e.expiresAt hk hkeys'
      refine ⟨h1, le_trans h2 (le_of_lt hlt), ?_, ?_⟩
      · rcases h3 with ⟨hh1, hh2⟩ | ⟨e1, he1, hee⟩
        · right
          exact ⟨e, by rw [hh1]; exact List.mem_cons_self _ _, hh2.symm⟩
        · right; exact ⟨e1, List.mem_cons_of_mem _ he1, hee⟩
      · intro p hp
        rcases List.mem_cons.mp hp with hp1 | hp1
        · rw [hp1]; exact h2
        · exact h4 p hp1
    · have hcond : ¬ (ot = "" ∨ e.expiresAt < otime) := by
        intro hor
        rcases hor with h | h
        · exact hot h
        · exact hlt h
      simp only [evictLoop, if_neg hcond]
      obtain ⟨h1, h2, h3, h4⟩ := ih ot otime hot hkeys'
      refine ⟨h1, h2, ?_, ?_⟩
      · rcases h3 with hh | ⟨e1, he1, hee⟩
        · left; exact hh
        · right; exact ⟨e1, List.mem_cons_of_mem _ he1, hee⟩
      · intro p hp
        rcases List.mem_cons.mp hp with hp1 | hp1
        · rw [hp1]; exact le_trans h2 (le_of_not_lt hlt)
        · exact h4 p hp1

theorem evictOldest_spec (c : Client) (hne : c.entries ≠ [])
    (hkeys : ∀ p ∈ c.entries, p.1 ≠ "") :
    ∃ tmin emin, (tmin, emin) ∈ c.entries ∧ tmin ≠ "" ∧
      (∀ p ∈ c.entries, emin.expiresAt ≤ p.2.expiresAt) ∧
      c.evictOldest = { c with entries := deleteToken c.entries tmin } := by
  obtain ⟨q, rest, hl⟩ : ∃ q rest, c.entries = q :: rest := by
    cases hcase : c.entries with
    | nil => exact absurd hcase hne
    | cons q rest => exact ⟨q, rest, rfl⟩
  obtain ⟨k, e⟩ := q
  have hk : k ≠ "" := hkeys (k, e) (hl ▸ List.mem_cons_self _ _)
  have hkeys' : ∀ p ∈ rest, p.1 ≠ "" :=
    fun p hp => hkeys p (hl ▸ List.mem_cons_of_mem _ hp)
  have hstep : evictLoop c.entries "" 0 = evictLoop rest k e.expiresAt := by
    rw [hl]
    simp [evictLoop]
  obtain ⟨h1, h2, h3, h4⟩ := evictLoop_spec rest k e.expiresAt hk hkeys'
  set r := evictLoop rest k e.expiresAt with hr
  have hmem : ∃ emin, (r.1, emin) ∈ c.entries ∧ emin.expiresAt = r.2 := by
    rcases h3 with ⟨hh1, hh2⟩ | ⟨e1, he1, hee⟩
    · exact ⟨e, by rw [hh1, hl]; exact List.mem_cons_self _ _, hh2.symm⟩
    · exact ⟨e1, hl ▸ List.mem_cons_of_mem _ he1, hee⟩
  obtain ⟨emin, hemin, hexp⟩ := hmem
  refine ⟨r.1, emin, hemin, h1, ?_, ?_⟩
  · intro p hp
    rw [hexp]
    rcases List.mem_cons.mp (hl ▸ hp) with hp1 | hp1
    · rw [hp1]; exact h2
    · exact h4 p hp1
  · show Client.evictOldest c = _
    rw [Client.evictOldest]
    simp only [hstep, ← hr, if_pos h1]

theorem mem_evictOldest {c : Client} {p : String × TokenCacheEntry}
    (h : p ∈ c.evictOldest.entries) : p ∈ c.entries := by
  rw [Client.evictOldest] at h
  by_cases hr : (evictLoop c.entries "" 0).1 ≠ ""
  · simp only [if_pos hr] at h
    exact mem_deleteToken h
  · simp only [if_neg hr] at h
    exact h

theorem evictOldest_opts (c : Client) : c.evictOldest.opts = c.opts := by
  rw [Client.evictOldest]
  by_cases hr : (evictLoop c.entries "" 0).1 ≠ ""
  · simp only [if_pos hr]
  · simp only [if_neg hr]

theorem set_opts (c : Client) (now : Nat) (t : String) (v h : Bool) :
    (c.set now t v h).opts = c.opts := by
  rw [Client.set]
  by_cases hc : c.opts.maxSize ≤ c.entries.length
  · simp only [if_pos hc]
    exact evictOldest_opts c
  · simp only [if_neg hc]

/-! ### Helper lemmas about `Set` followed by `Get` -/

theorem get_set_self (c : Client) (now now2 : Nat) (tok : String) (v h : Bool)
    (hfresh : now2 ≤ now + c.opts.ttl) :
    (c.set now tok v h).get now2 tok =
      some { valid := v, hasAccess := h, expiresAt := now + c.opts.ttl } := by
  have hlk : lookupToken (c.set now tok v h).entries tok =
      some { valid := v, hasAccess := h, expiresAt := now + c.opts.ttl } := by
    simp only [Client.set]
    by_cases hc : c.opts.maxSize ≤ c.entries.length
    · simp only [if_pos hc, evictOldest_opts]
      exact lookup_insertEntry_self _ _ _
    · simp only [if_neg hc]
      exact lookup_insertEntry_self _ _ _
  unfold Client.get
  rw [hlk]
  simp [Nat.not_lt.mpr hfresh]

/-- Cache-hit behavior of the auth handler, shared auxiliary lemma. -/
theorem authHandler_hit_aux (c : Client) (now : Nat) (tok : String)
    (uOk acc aErr : Bool) (entry : TokenCacheEntry)
    (htok : tok ≠ "") (hget : c.get now tok = some entry) :
    AuthHandler c now tok uOk acc aErr =
      ((if entry.valid && entry.hasAccess then AuthOutcome.authorized
        else AuthOutcome.forbidden), c, []) := by
  simp only [AuthHandler, if_neg htok, hget]
  cases hval : entry.valid && entry.hasAccess <;> simp [hval]

/-! ### C1: decision on a cache hit -/

/-- C1 (amended): for every non-empty token with an unexpired cached
verdict, the auth handler answers from the cache alone — Authorized when
`valid && hasAccess` and Forbidden in both other cases (`valid &&
!hasAccess` as well as `!valid`) — leaving the cache unchanged and
issuing no upstream call.  (The original claim expected Unauthenticated
for `!valid`; the code returns Forbidden there.) -/
theorem authHandler_cache_hit (c : Client) (now : Nat) (tok : String)
    (uOk acc aErr : Bool) (entry : TokenCacheEntry)
    (htok : tok ≠ "") (hget : c.get now tok = some entry) :
    AuthHandler c now tok uOk acc aErr =
      ((if entry.valid && entry.hasAccess then AuthOutcome.authorized
        else AuthOutcome.forbidden), c, []) :=
  authHandler_hit_aux c now tok uOk acc aErr entry htok hget

/-- Concrete cache for the C1 counterexample: one unexpired entry with
`valid = false` for token "t". -/
def cexC1 : Client :=
  { opts := { ttl := 10, maxSize := 5 },
    entries := [("t", { valid := false, hasAccess := false, expiresAt := 10 })] }

/-- C1 counterexample: token "t" is non-empty, its cached verdict is
unexpired with `valid = false`, yet the handler returns Forbidden, not
the Unauthenticated outcome the claim requires. -/
theorem authHandler_cache_hit_cex :
    (cexC1.get 5 "t").map TokenCacheEntry.valid = some false ∧
    (AuthHandler cexC1 5 "t" true true false).1 = AuthOutcome.forbidden ∧
    AuthOutcome.forbidden ≠ AuthOutcome.unauthenticated := by
  refine ⟨?_, ?_, ?_⟩ <;> decide

/-- C1 witness: the amended theorem applied to the concrete cache. -/
theorem authHandler_cache_hit_witness :
    AuthHandler cexC1 5 "t" true true false = (AuthOutcome.forbidden, cexC1, []) :=
  authHandler_cache_hit cexC1 5 "t" true true false
    { valid := false, hasAccess := false, expiresAt := 10 } (by decide) (by decide)

/-! ### C3: access check succeeds but reports no access -/

/-- C3 (amended): on a cache miss where the principal resolves and the
access check completes without error reporting no access, the handler
caches `{valid := false, hasAccess := false}` for the token (the deferred
negative write) and returns Forbidden after both upstream calls.  (The
original claim expected the cached verdict `{valid := true, hasAccess :=
false}`.) -/
theorem authHandler_no_access (c : Client) (now : Nat) (tok : String)
    (htok : tok ≠ "") (hmiss : c.get now tok = none) :
    AuthHandler c now tok true false false =
      (AuthOutcome.forbidden, c.set now tok false false,
        [UpstreamCall.getUserInfo, UpstreamCall.checkServerAccess]) := by
  simp [AuthHandler, htok, hmiss]

/-- Concrete empty cache for the C3 counterexample. -/
def cexC3 : Client := { opts := { ttl := 10, maxSize := 5 }, entries := [] }

/-- C3 counterexample: after a miss with a valid principal and a
no-access answer, the stored verdict has `valid = false`, not the
`valid = true` the claim requires (the Forbidden outcome does hold). -/
theorem authHandler_no_access_cex :
    (AuthHandler cexC3 0 "t" true false false).1 = AuthOutcome.forbidden ∧
    lookupToken (AuthHandler cexC3 0 "t" true false false).2.1.entries "t" =
      some { valid := false, hasAccess := false, expiresAt := 10 } ∧
    (lookupToken (AuthHandler cexC3 0 "t" true false false).2.1.entries "t").map
      TokenCacheEntry.valid ≠ some true := by
  refine ⟨?_, ?_, ?_⟩ <;> decide

/-- C3 witness: the amended theorem applied to the concrete cache. -/
theorem authHandler_no_access_witness :
    AuthHandler cexC3 0 "t" true false false =
      (AuthOutcome.forbidden, cexC3.set 0 "t" false false,
        [UpstreamCall.getUserInfo, UpstreamCall.checkServerAccess]) :=
  authHandler_no_access cexC3 0 "t" (by decide) (by decide)

/-! ### C2: access check fails with an error -/

/-- C2 (amended): on a cache miss where the principal resolves but the
access check returns an error, the handler caches `{valid := false,
hasAccess := false}` for the token and returns Forbidden (there is no
distinct transient outcome); an Evaluate within the TTL then answers
Forbidden from the cache with no upstream calls.  (The original claim
expected no cache write and a transient error.) -/
theorem authHandler_access_error (c : Client) (now now2 : Nat) (tok : String)
    (uOk2 acc2 aErr2 access : Bool)
    (htok : tok ≠ "") (hmiss : c.get now tok = none)
    (hfresh : now2 ≤ now + c.opts.ttl) :
    (AuthHandler c now tok true access true).1 = AuthOutcome.forbidden ∧
    (AuthHandler c now tok true access true).2.1.get now2 tok =
      some { valid := false, hasAccess := false, expiresAt := now + c.opts.ttl } ∧
    AuthHandler (AuthHandler c now tok true access true).2.1 now2 tok uOk2 acc2 aErr2 =
      (AuthOutcome.forbidden, (AuthHandler c now tok true access true).2.1, []) := by
  have hstate : (AuthHandler c now tok true access true).2.1 =
      c.set now tok false false := by
    simp [AuthHandler, htok, hmiss]
  have hget2 : (AuthHandler c now tok true access true).2.1.get now2 tok =
      some { valid := false, hasAccess := false, expiresAt := now + c.opts.ttl } := by
    rw [hstate]; exact get_set_self c now now2 tok false false hfresh
  refine ⟨by simp [AuthHandler, htok, hmiss], hget2, ?_⟩
  have := authHandler_hit_aux (AuthHandler c now tok true access true).2.1 now2 tok
    uOk2 acc2 aErr2 _ htok hget2
  simpa using this

/-- Concrete empty cache for the C2 counterexample. -/
def cexC2 : Client := { opts := { ttl := 10, maxSize := 5 }, entries := [] }

/-- C2 counterexample: principal resolution succeeds, the access check
errors, yet the handler does write a cache entry (`{valid := false,
hasAccess := false}`) and returns Forbidden rather than an outcome
distinct from Forbidden. -/
theorem authHandler_access_error_cex :
    (AuthHandler cexC2 0 "t" true true true).2.1 ≠ cexC2 ∧
    lookupToken (AuthHandler cexC2 0 "t" true true true).2.1.entries "t" =
      some { valid := false, hasAccess := false, expiresAt := 10 } ∧
    (AuthHandler cexC2 0 "t" true true true).1 = AuthOutcome.forbidden := by
  refine ⟨?_, ?_, ?_⟩ <;> decide

/-- C2 witness: the amended theorem applied to the concrete cache. -/
theorem authHandler_access_error_witness :
    (AuthHandler cexC2 0 "t" true true true).1 = AuthOutcome.forbidden ∧
    (AuthHandler cexC2 0 "t" true true true).2.1.get 5 "t" =
      some { valid := false, hasAccess := false, expiresAt := 10 } ∧
    AuthHandler (AuthHandler cexC2 0 "t" true true true).2.1 5 "t" false false false =
      (AuthOutcome.forbidden, (AuthHandler cexC2 0 "t" true true true).2.1, []) :=
  authHandler_access_error cexC2 0 5 "t" false false false true
    (by decide) (by decide) (by decide)

/-! ### C5: successful PIN claim pre-seeds the cache -/

/-- C5: when the PIN is claimed (a non-empty token) and both upstream
checks succeed with access granted, the poll handler reports
ClaimedWithAccess for the token and registers `{valid := true, hasAccess
:= true}` for it, so an Evaluate within the TTL is Authorized straight
from the cache with no upstream call. -/
theorem callback_preseed (c : Client) (now now2 : Nat) (tok : String)
    (uOk2 acc2 aErr2 : Bool)
    (htok : tok ≠ "") (hfresh : now2 ≤ now + c.opts.ttl) :
    (CallbackHandler c now false tok true true false).1 =
      PollOutcome.claimedWithAccess tok ∧
    (CallbackHandler c now false tok true true false).2.get now2 tok =
      some { valid := true, hasAccess := true, expiresAt := now + c.opts.ttl } ∧
    AuthHandler (CallbackHandler c now false tok true true false).2
        now2 tok uOk2 acc2 aErr2 =
      (AuthOutcome.authorized,
        (CallbackHandler c now false tok true true false).2, []) := by
  have hstate : (CallbackHandler c now false tok true true false).2 =
      c.set now tok true true := by
    simp [CallbackHandler, htok]
  have hget2 : (CallbackHandler c now false tok true true false).2.get now2 tok =
      some { valid := true, hasAccess := true, expiresAt := now + c.opts.ttl } := by
    rw [hstate]; exact get_set_self c now now2 tok true true hfresh
  refine ⟨by simp [CallbackHandler, htok], hget2, ?_⟩
  have := authHandler_hit_aux (CallbackHandler c now false tok true true false).2
    now2 tok uOk2 acc2 aErr2 _ htok hget2
  simpa using this

/-- Concrete empty cache for the C5 witness. -/
def cexC5 : Client := { opts := { ttl := 10, maxSize := 5 }, entries := [] }

/-- C5 witness: the theorem applied to a concrete claimed PIN. -/
theorem callback_preseed_witness :
    (CallbackHandler cexC5 0 false "tok" true true false).1 =
      PollOutcome.claimedWithAccess "tok" ∧
    (CallbackHandler cexC5 0 false "tok" true true false).2.get 5 "tok" =
      some { valid := true, hasAccess := true, expiresAt := 10 } ∧
    AuthHandler (CallbackHandler cexC5 0 false "tok" true true false).2
        5 "tok" false false false =
      (AuthOutcome.authorized,
        (CallbackHandler cexC5 0 false "tok" true true false).2, []) :=
  callback_preseed cexC5 0 5 "tok" false false false (by decide) (by decide)

/-! ### C7: every other PollPin outcome leaves the cache unchanged -/

/-- C7: whenever the outcome of the poll handler is not ClaimedWithAccess —
PIN-check error, not yet claimed, user-info error, access-check error,
or access denied — the cache state it returns is exactly the one it was
given. -/
theorem callback_frame (c : Client) (now : Nat) (checkPinErr : Bool)
    (tok : String) (uOk acc aErr : Bool)
    (h : ∀ t, (CallbackHandler c now checkPinErr tok uOk acc aErr).1 ≠
      PollOutcome.claimedWithAccess t) :
    (CallbackHandler c now checkPinErr tok uOk acc aErr).2 = c := by
  cases checkPinErr with
  | true => simp [CallbackHandler]
  | false =>
    by_cases htok : tok = ""
    · simp [CallbackHandler, htok]
    · cases uOk with
      | false => simp [CallbackHandler, htok]
      | true =>
        cases aErr with
        | true => simp [CallbackHandler, htok]
        | false =>
          cases acc with
          | false => simp [CallbackHandler, htok]
          | true =>
            exact absurd (by simp [CallbackHandler, htok]) (h tok)

/-- Concrete cache for the C7 witness. -/
def cexC7 : Client :=
  { opts := { ttl := 10, maxSize := 5 },
    entries := [("a", { valid := true, hasAccess := true, expiresAt := 7 })] }

/-- C7 witness: an access-denied poll leaves the concrete cache as is. -/
theorem callback_frame_witness :
    (CallbackHandler cexC7 3 false "tok" true false false).2 = cexC7 :=
  callback_frame cexC7 3 false "tok" true false false
    (fun _t h => PollOutcome.noConfusion h)

/-! ### Key-uniqueness preservation (the Go map invariant) -/

theorem keys_deleteToken_sublist (l : List (String × TokenCacheEntry)) (t : String) :
    ((deleteToken l t).map Prod.fst).Sublist (l.map Prod.fst) := by
  induction l with
  | nil => simp [deleteToken]
  | cons q rest ih =>
    obtain ⟨k, e⟩ := q
    by_cases hk : k = t
    · simp only [deleteToken, if_pos hk, List.map_cons]
      exact List.sublist_cons_self _ _
    · simp only [deleteToken, if_neg hk, List.map_cons]
      exact ih.cons₂ _

theorem keys_mem_insertEntry {l : List (String × TokenCacheEntry)} {t : String}
    {e : TokenCacheEntry} {x : String}
    (hx : x ∈ (insertEntry l t e).map Prod.fst) :
    x ∈ l.map Prod.fst ∨ x = t := by
  rcases List.mem_map.mp hx with ⟨p, hp, rfl⟩
  rcases mem_insertEntry hp with h1 | h1
  · exact Or.inl (List.mem_map_of_mem _ h1)
  · right; rw [h1]

theorem nodup_keys_insertEntry {l : List (String × TokenCacheEntry)} {t : String}
    {e : TokenCacheEntry} (h : (l.map Prod.fst).Nodup) :
    ((insertEntry l t e).map Prod.fst).Nodup := by
  induction l with
  | nil => simp [insertEntry]
  | cons q rest ih =>
    obtain ⟨k, e0⟩ := q
    simp only [List.map_cons, List.nodup_cons] at h
    by_cases hk : k = t
    · subst hk
      have hred : insertEntry ((k, e0) :: rest) k e = (k, e) :: rest := by
        simp [insertEntry]
      rw [hred]
      simp only [List.map_cons, List.nodup_cons]
      exact ⟨h.1, h.2⟩
    · simp only [insertEntry, if_neg hk, List.map_cons, List.nodup_cons]
      refine ⟨?_, ih h.2⟩
      intro hmem
      rcases keys_mem_insertEntry hmem with h1 | h1
      · exact h.1 h1
      · exact hk h1

theorem nodup_keys_evictOldest {c : Client} (h : (c.entries.map Prod.fst).Nodup) :
    (c.evictOldest.entries.map Prod.fst).Nodup := by
  rw [Client.evictOldest]
  by_cases hr : (evictLoop c.entries "" 0).1 ≠ ""
  · simp only [if_pos hr]
    exact h.sublist (keys_deleteToken_sublist _ _)
  · simp only [if_neg hr]; exact h

theorem nodup_keys_set {c : Client} {now : Nat} {t : String} {v hb : Bool}
    (h : (c.entries.map Prod.fst).Nodup) :
    ((c.set now t v hb).entries.map Prod.fst).Nodup := by
  simp only [Client.set]
  by_cases hc : c.opts.maxSize ≤ c.entries.length
  · simp only [if_pos hc]
    exact nodup_keys_insertEntry (nodup_keys_evictOldest h)
  · simp only [if_neg hc]
    exact nodup_keys_insertEntry h

theorem mem_insertEntry_self_eq {l : List (String × TokenCacheEntry)} {t : String}
    {e : TokenCacheEntry} (hnd : (l.map Prod.fst).Nodup) {e1 : TokenCacheEntry}
    (h : (t, e1) ∈ insertEntry l t e) : e1 = e :=
  entry_eq_of_nodup_keys (nodup_keys_insertEntry hnd) h
    (mem_of_lookup (lookup_insertEntry_self l t e))

/-! ### Membership through the cache operations -/

theorem mem_set {c : Client} {now : Nat} {t : String} {v h : Bool}
    {p : String × TokenCacheEntry} (hp : p ∈ (c.set now t v h).entries) :
    p ∈ c.entries ∨ p.1 = t := by
  simp only [Client.set] at hp
  rcases mem_insertEntry hp with h1 | h1
  · by_cases hc : c.opts.maxSize ≤ c.entries.length
    · rw [if_pos hc] at h1
      exact Or.inl (mem_evictOldest h1)
    · rw [if_neg hc] at h1
      exact Or.inl h1
  · right; rw [h1]

theorem applyOp_entry_stable {tok : String} {e0 : TokenCacheEntry} {c : Client}
    (now : Nat) {op : CacheOp}
    (hop : ∀ v h, op ≠ CacheOp.set tok v h)
    (hinv : ∀ e, (tok, e) ∈ c.entries → e = e0) :
    ∀ e, (tok, e) ∈ (applyOp c now op).entries → e = e0 := by
  intro e he
  cases op with
  | set t v h =>
    have htne : t ≠ tok := fun hteq => hop v h (by rw [hteq])
    simp only [applyOp] at he
    rcases mem_set he with h1 | h1
    · exact hinv e h1
    · exact absurd h1 (fun hh => htne hh.symm)
  | invalidate t =>
    simp only [applyOp, Client.invalidate] at he
    exact hinv e (mem_deleteToken he)
  | clear =>
    simp only [applyOp, Client.clear] at he
    simp at he
  | sweep =>
    simp only [applyOp, Client.sweep] at he
    exact hinv e (List.mem_of_mem_filter he)
  | get t =>
    simp only [applyOp] at he
    exact hinv e he

theorem runOps_entry_stable {tok : String} {e0 : TokenCacheEntry} :
    ∀ (ops : List (Nat × CacheOp)) (c : Client),
    (∀ q ∈ ops, ∀ v h, q.2 ≠ CacheOp.set tok v h) →
    (∀ e, (tok, e) ∈ c.entries → e = e0) →
    ∀ e, (tok, e) ∈ (runOps c ops).entries → e = e0 := by
  intro ops
  induction ops with
  | nil => intro c _ hinv; exact hinv
  | cons q rest ih =>
    obtain ⟨n, op⟩ := q
    intro c hops hinv
    simp only [runOps]
    exact ih (applyOp c n op)
      (fun p hp => hops p (List.mem_cons_of_mem _ hp))
      (applyOp_entry_stable n (hops (n, op) (List.mem_cons_self _ _)) hinv)

/-! ### C6: Set stamps now + TTL; fresh Get hits, late Get misses -/

/-- C6: `Set` stamps the entry with `expiresAt = now + TTL`; a `Get` for
the token at the same instant returns exactly the stored verdict, and a
`Get` strictly later than `now + TTL`, after any sequence of cache
operations none of which is a `Set` for that token, returns not-found.
The `Nodup` hypothesis is the Go map representation invariant (one
binding per key). -/
theorem set_ttl_expiry (c : Client) (now now2 : Nat) (tok : String) (v h : Bool)
    (ops : List (Nat × CacheOp))
    (hkeys : (c.entries.map Prod.fst).Nodup)
    (hops : ∀ q ∈ ops, ∀ v2 h2, q.2 ≠ CacheOp.set tok v2 h2)
    (hlate : now + c.opts.ttl < now2) :
    (c.set now tok v h).get now tok =
      some { valid := v, hasAccess := h, expiresAt := now + c.opts.ttl } ∧
    (runOps (c.set now tok v h) ops).get now2 tok = none := by
  refine ⟨get_set_self c now now tok v h (Nat.le_add_right _ _), ?_⟩
  have hbase : ∀ e, (tok, e) ∈ (c.set now tok v h).entries →
      e = { valid := v, hasAccess := h, expiresAt := now + c.opts.ttl } := by
    intro e he
    simp only [Client.set] at he
    by_cases hc : c.opts.maxSize ≤ c.entries.length
    · rw [if_pos hc] at he
      exact mem_insertEntry_self_eq (nodup_keys_evictOldest hkeys)
        (by simpa [evictOldest_opts] using he)
    · rw [if_neg hc] at he
      exact mem_insertEntry_self_eq hkeys he
  have hstable := runOps_entry_stable ops (c.set now tok v h) hops hbase
  unfold Client.get
  cases hk : lookupToken (runOps (c.set now tok v h) ops).entries tok with
  | none => rfl
  | some e =>
    have he := hstable e (mem_of_lookup hk)
    subst he
    simp [hlate]

/-- Concrete cache for the C6 witness. -/
def cexC6 : Client := { opts := { ttl := 10, maxSize := 5 }, entries := [] }

/-- C6 witness: a concrete Set, interleaved with operations on another
token, expires strictly after the TTL. -/
theorem set_ttl_expiry_witness :
    (cexC6.set 0 "t" true true).get 0 "t" =
      some { valid := true, hasAccess := true, expiresAt := 10 } ∧
    (runOps (cexC6.set 0 "t" true true)
      [(3, CacheOp.set "u" true false), (4, CacheOp.get "t"),
        (5, CacheOp.invalidate "u")]).get 11 "t" = none :=
  set_ttl_expiry cexC6 0 11 "t" true true
    [(3, CacheOp.set "u" true false), (4, CacheOp.get "t"),
      (5, CacheOp.invalidate "u")]
    (by decide) (by decide) (by decide)

/-! ### C10: Get performs no write; expiry is lazy only in the sweep -/

theorem lookup_filter_none {l : List (String × TokenCacheEntry)} {t : String}
    {e : TokenCacheEntry} (hnd : (l.map Prod.fst).Nodup)
    (hl : lookupToken l t = some e)
    {pred : String × TokenCacheEntry → Bool} (hpred : pred (t, e) = false) :
    lookupToken (l.filter pred) t = none := by
  apply lookup_eq_none
  intro p hp hpt
  have hpl := List.mem_of_mem_filter hp
  have hpp : pred p = true := List.of_mem_filter hp
  have hmem : (t, p.2) ∈ l := by
    have hpe : p = (t, p.2) := Prod.ext hpt rfl
    rw [← hpe]; exact hpl
  have he : p.2 = e := entry_eq_of_nodup_keys hnd hmem (mem_of_lookup hl)
  have hpe2 : p = (t, e) := Prod.ext hpt he
  rw [hpe2, hpred] at hpp
  simp at hpp

/-- C10: a `Get` call never mutates the cache — the state it passes on
is the one it received, for hits, misses, and expired entries alike —
and there is no lazy deletion on read: an expired entry is reported as a
miss by `Get`, yet its binding is still present afterwards, and it is
the sweep tick that removes it.  The `Nodup` hypothesis is the Go map
representation invariant. -/
theorem get_no_mutation (c : Client) (now : Nat) (t : String)
    (e : TokenCacheEntry) (hnd : (c.entries.map Prod.fst).Nodup) :
    applyOp c now (CacheOp.get t) = c ∧
    (lookupToken c.entries t = some e → e.expiresAt < now →
      c.get now t = none ∧
      lookupToken (applyOp c now (CacheOp.get t)).entries t = some e ∧
      lookupToken (c.sweep now).entries t = none) := by
  refine ⟨rfl, fun hl hexp => ⟨?_, hl, ?_⟩⟩
  · unfold Client.get
    rw [hl]
    simp [hexp]
  · simp only [Client.sweep]
    exact lookup_filter_none hnd hl (by simp [hexp])

/-- Concrete expired entry for the C10 witness. -/
def cexC10e : TokenCacheEntry := { valid := true, hasAccess := true, expiresAt := 3 }

/-- Concrete cache for the C10 witness: one expired entry. -/
def cexC10 : Client :=
  { opts := { ttl := 10, maxSize := 5 }, entries := [("t", cexC10e)] }

/-- C10 witness: the theorem applied to a concrete expired entry. -/
theorem get_no_mutation_witness :
    (cexC10.entries.map Prod.fst).Nodup ∧
    (applyOp cexC10 5 (CacheOp.get "t") = cexC10 ∧
      (lookupToken cexC10.entries "t" = some cexC10e → cexC10e.expiresAt < 5 →
        cexC10.get 5 "t" = none ∧
        lookupToken (applyOp cexC10 5 (CacheOp.get "t")).entries "t" = some cexC10e ∧
        lookupToken (cexC10.sweep 5).entries "t" = none)) :=
  ⟨by decide, get_no_mutation cexC10 5 "t" cexC10e (by decide)⟩

/-! ### C9: every written verdict satisfies valid = false → hasAccess = false -/

theorem mem_set_entry {c : Client} {now : Nat} {t : String} {v h : Bool}
    {p : String × TokenCacheEntry} (hp : p ∈ (c.set now t v h).entries) :
    p ∈ c.entries ∨
      p.2 = { valid := v, hasAccess := h, expiresAt := now + c.opts.ttl } := by
  simp only [Client.set] at hp
  by_cases hc : c.opts.maxSize ≤ c.entries.length
  · rw [if_pos hc] at hp
    rcases mem_insertEntry hp with h1 | h1
    · exact Or.inl (mem_evictOldest h1)
    · right; rw [h1]; simp [evictOldest_opts]
  · rw [if_neg hc] at hp
    rcases mem_insertEntry hp with h1 | h1
    · exact Or.inl h1
    · right; rw [h1]

theorem set_preserves_inv {c : Client} {now : Nat} {t : String} {v h : Bool}
    (hvh : v = false → h = false)
    (hinv : ∀ p ∈ c.entries, p.2.valid = false → p.2.hasAccess = false) :
    ∀ p ∈ (c.set now t v h).entries, p.2.valid = false → p.2.hasAccess = false := by
  intro p hp
  rcases mem_set_entry hp with h1 | h1
  · exact hinv p h1
  · rw [h1]; exact hvh

/-- C9: if every cached verdict satisfies `valid = false → hasAccess =
false`, then after any Evaluate call and any PollPin call — each of
whose write branches stores either `{false, false}` or `{true, true}` —
every cached verdict still satisfies it; no reachable cache state holds
an entry with `valid = false` and `hasAccess = true`. -/
theorem cache_writes_invariant (c : Client) (now now2 : Nat) (tok tok2 : String)
    (uOk acc aErr checkPinErr uOk2 acc2 aErr2 : Bool)
    (hinv : ∀ p ∈ c.entries, p.2.valid = false → p.2.hasAccess = false) :
    (∀ p ∈ (AuthHandler c now tok uOk acc aErr).2.1.entries,
      p.2.valid = false → p.2.hasAccess = false) ∧
    (∀ p ∈ (CallbackHandler c now2 checkPinErr tok2 uOk2 acc2 aErr2).2.entries,
      p.2.valid = false → p.2.hasAccess = false) := by
  constructor
  · by_cases htok : tok = ""
    · simpa [AuthHandler, htok] using hinv
    · cases hget : c.get now tok with
      | some entry =>
        cases hval : entry.valid && entry.hasAccess <;>
          simpa [AuthHandler, htok, hget, hval] using hinv
      | none =>
        cases uOk with
        | false =>
          have hstate : (AuthHandler c now tok false acc aErr).2.1 =
              c.set now tok false false := by
            simp [AuthHandler, htok, hget]
          rw [hstate]
          exact set_preserves_inv (fun _ => rfl) hinv
        | true =>
          by_cases hfb : (!acc || aErr) = true
          · have hstate : (AuthHandler c now tok true acc aErr).2.1 =
                c.set now tok false false := by
              simp [AuthHandler, htok, hget, hfb]
            rw [hstate]
            exact set_preserves_inv (fun _ => rfl) hinv
          · have hstate : (AuthHandler c now tok true acc aErr).2.1 =
                c.set now tok true true := by
              simp [AuthHandler, htok, hget, hfb]
            rw [hstate]
            exact set_preserves_inv (fun hft => by cases hft) hinv
  · cases checkPinErr with
    | true => simpa [CallbackHandler] using hinv
    | false =>
      by_cases htok : tok2 = ""
      · simpa [CallbackHandler, htok] using hinv
      · cases uOk2 with
        | false => simpa [CallbackHandler, htok] using hinv
        | true =>
          cases aErr2 with
          | true => simpa [CallbackHandler, htok] using hinv
          | false =>
            cases acc2 with
            | false => simpa [CallbackHandler, htok] using hinv
            | true =>
              have hstate : (CallbackHandler c now2 false tok2 true true false).2 =
                  c.set now2 tok2 true true := by
                simp [CallbackHandler, htok]
              rw [hstate]
              exact set_preserves_inv (fun hft => by cases hft) hinv

/-- Concrete cache for the C9 witness. -/
def cexC9 : Client :=
  { opts := { ttl := 10, maxSize := 2 },
    entries := [("a", { valid := false, hasAccess := false, expiresAt := 6 })] }

/-- C9 witness: the invariant survives a concrete Evaluate that caches a
negative verdict and a concrete PollPin that pre-seeds a positive one. -/
theorem cache_writes_invariant_witness :
    (∀ p ∈ (AuthHandler cexC9 0 "t" false true false).2.1.entries,
      p.2.valid = false → p.2.hasAccess = false) ∧
    (∀ p ∈ (CallbackHandler cexC9 1 false "u" true true false).2.entries,
      p.2.valid = false → p.2.hasAccess = false) :=
  cache_writes_invariant cexC9 0 1 "t" "u" false true false false true true false
    (by decide)

/-! ### C4: what Set evicts -/

/-- C4 (amended): for every `Set` on a cache whose tokens are all
non-empty: if the cache is at (or above) capacity then exactly one entry
— one holding the minimal `expiresAt` — is evicted before the insert,
regardless of whether the token is already present; below capacity
nothing is evicted.  (The original claim exempted already-present
tokens; the code checks only the length.) -/
theorem set_eviction (c : Client) (now : Nat) (tok : String) (v h : Bool)
    (hkeys : ∀ p ∈ c.entries, p.1 ≠ "") :
    (c.opts.maxSize ≤ c.entries.length → c.entries ≠ [] →
      ∃ tmin emin, (tmin, emin) ∈ c.entries ∧
        (∀ p ∈ c.entries, emin.expiresAt ≤ p.2.expiresAt) ∧
        (deleteToken c.entries tmin).length + 1 = c.entries.length ∧
        (c.set now tok v h).entries =
          insertEntry (deleteToken c.entries tmin) tok
            { valid := v, hasAccess := h, expiresAt := now + c.opts.ttl }) ∧
    (c.entries.length < c.opts.maxSize →
      (c.set now tok v h).entries =
        insertEntry c.entries tok
          { valid := v, hasAccess := h, expiresAt := now + c.opts.ttl }) := by
  constructor
  · intro hc hne
    obtain ⟨tmin, emin, hmem, htmin, hminall, heq⟩ := evictOldest_spec c hne hkeys
    refine ⟨tmin, emin, hmem, hminall, length_deleteToken_add_one hmem, ?_⟩
    simp only [Client.set, if_pos hc]
    rw [heq]
  · intro hc2
    simp only [Client.set, if_neg (Nat.not_le.mpr hc2)]

/-- Concrete at-capacity cache for C4: capacity 2, token "b" present. -/
def cexC4 : Client :=
  { opts := { ttl := 10, maxSize := 2 },
    entries := [("a", { valid := true, hasAccess := true, expiresAt := 5 }),
                ("b", { valid := true, hasAccess := true, expiresAt := 9 })] }

/-- C4 counterexample: a `Set` for the already-present token "b" at
capacity still evicts the soonest-to-expire entry "a", contradicting the
claim that no entry is evicted when the token is already present. -/
theorem set_eviction_cex :
    lookupToken cexC4.entries "b" ≠ none ∧
    (cexC4.set 20 "b" true true).entries =
      [("b", { valid := true, hasAccess := true, expiresAt := 30 })] ∧
    lookupToken (cexC4.set 20 "b" true true).entries "a" = none := by
  refine ⟨?_, ?_, ?_⟩ <;> decide

/-- C4 witness: the amended theorem applied to the concrete cache. -/
theorem set_eviction_witness :
    ((2 : Nat) ≤ cexC4.entries.length → cexC4.entries ≠ [] →
      ∃ tmin emin, (tmin, emin) ∈ cexC4.entries ∧
        (∀ p ∈ cexC4.entries, emin.expiresAt ≤ p.2.expiresAt) ∧
        (deleteToken cexC4.entries tmin).length + 1 = cexC4.entries.length ∧
        (cexC4.set 20 "b" true true).entries =
          insertEntry (deleteToken cexC4.entries tmin) "b"
            { valid := true, hasAccess := true, expiresAt := 30 }) ∧
    (cexC4.entries.length < 2 →
      (cexC4.set 20 "b" true true).entries =
        insertEntry cexC4.entries "b"
          { valid := true, hasAccess := true, expiresAt := 30 }) :=
  set_eviction cexC4 20 "b" true true (by decide)

/-! ### C8: the size bound under sequences of Sets -/

theorem set_size_bound {c : Client} {now : Nat} {tok : String} {v h : Bool}
    (hpos : 0 < c.opts.maxSize) (htok : tok ≠ "")
    (hkeys : ∀ p ∈ c.entries, p.1 ≠ "")
    (hlen : c.entries.length ≤ c.opts.maxSize) :
    (c.set now tok v h).entries.length ≤ c.opts.maxSize ∧
    (∀ p ∈ (c.set now tok v h).entries, p.1 ≠ "") := by
  constructor
  · by_cases hc : c.opts.maxSize ≤ c.entries.length
    · have hne : c.entries ≠ [] := by
        intro hnil
        rw [hnil] at hc
        simp at hc
        omega
      obtain ⟨tmin, emin, hmem, htmin, hminall, heq⟩ := evictOldest_spec c hne hkeys
      have hdel : (deleteToken c.entries tmin).length + 1 = c.entries.length :=
        length_deleteToken_add_one hmem
      have hform : (c.set now tok v h).entries =
          insertEntry (deleteToken c.entries tmin) tok
            { valid := v, hasAccess := h, expiresAt := now + c.opts.ttl } := by
        simp only [Client.set, if_pos hc]
        rw [heq]
      rw [hform]
      have hins := length_insertEntry_le (deleteToken c.entries tmin) tok
        { valid := v, hasAccess := h, expiresAt := now + c.opts.ttl }
      omega
    · have hform : (c.set now tok v h).entries =
          insertEntry c.entries tok
            { valid := v, hasAccess := h, expiresAt := now + c.opts.ttl } := by
        simp only [Client.set, if_neg hc]
      rw [hform]
      have hins := length_insertEntry_le c.entries tok
        { valid := v, hasAccess := h, expiresAt := now + c.opts.ttl }
      have hlt := Nat.lt_of_not_le hc
      omega
  · intro p hp
    rcases mem_set hp with h1 | h1
    · exact hkeys p h1
    · rw [h1]; exact htok

theorem runSets_bound_aux :
    ∀ (sets : List (Nat × String × Bool × Bool)) (c : Client),
    0 < c.opts.maxSize →
    (∀ s ∈ sets, s.2.1 ≠ "") →
    (∀ p ∈ c.entries, p.1 ≠ "") →
    c.entries.length ≤ c.opts.maxSize →
    (runSets c sets).entries.length ≤ c.opts.maxSize := by
  intro sets
  induction sets with
  | nil => intro c _ _ _ hlen; exact hlen
  | cons s rest ih =>
    obtain ⟨n, t, v, h⟩ := s
    intro c hpos hsets hkeys hlen
    simp only [runSets]
    have hts : t ≠ "" := hsets (n, t, v, h) (List.mem_cons_self _ _)
    obtain ⟨hlen2, hkeys2⟩ := set_size_bound hpos hts hkeys hlen
    have hopts := set_opts c n t v h
    have hres := ih (c.set n t v h) (by rw [hopts]; exact hpos)
      (fun q hq => hsets q (List.mem_cons_of_mem _ hq))
      hkeys2 (by rw [hopts]; exact hlen2)
    rw [hopts] at hres
    exact hres

/-- C8 (amended): for every sequence of `Set` calls with pairwise
distinct non-empty tokens, starting from an empty cache with a positive
`maxSize`, the number of entries never exceeds `maxSize` (stated for
every such sequence, hence for every prefix).  (The original claim
admitted the empty-string token, on which `evictOldest` cannot evict —
its sentinel is the empty string — and the bound fails.) -/
theorem runSets_bound (opts : CacheOptions)
    (sets : List (Nat × String × Bool × Bool))
    (hpos : 0 < opts.maxSize)
    (hne : ∀ s ∈ sets, s.2.1 ≠ "")
    (_hdistinct : (sets.map (fun s => s.2.1)).Nodup) :
    (runSets { opts := opts, entries := [] } sets).entries.length ≤
      opts.maxSize :=
  runSets_bound_aux sets { opts := opts, entries := [] } hpos hne
    (by intro p hp; simp at hp) (by simp)

/-- Concrete empty cache with maxSize 1 for the C8 counterexample. -/
def cexC8 : Client := { opts := { ttl := 10, maxSize := 1 }, entries := [] }

/-- C8 counterexample: from empty with positive maxSize 1, two Sets with
the distinct tokens "" and "x" leave 2 entries: `evictOldest` cannot
evict the entry keyed by the empty string, so the bound is exceeded. -/
theorem runSets_bound_cex :
    0 < cexC8.opts.maxSize ∧
    (runSets cexC8 [(0, "", true, true), (1, "x", true, true)]).entries.length = 2 ∧
    ¬ (runSets cexC8
        [(0, "", true, true), (1, "x", true, true)]).entries.length ≤
      cexC8.opts.maxSize := by
  refine ⟨?_, ?_, ?_⟩ <;> decide

/-- C8 witness: the amended bound on a concrete three-Set sequence into
a cache of capacity 2. -/
theorem runSets_bound_witness :
    (runSets { opts := { ttl := 10, maxSize := 2 }, entries := [] }
      [(0, "a", true, true), (1, "b", false, false),
        (2, "c", true, false)]).entries.length ≤ 2 :=
  runSets_bound { ttl := 10, maxSize := 2 }
    [(0, "a", true, true), (1, "b", false, false), (2, "c", true, false)]
    (by decide) (by decide) (by decide)
